import Mathlib

/-!
Verification of the RCNN target-assignment layer (`frcnn/rcnn_target.py`,
method `RCNNTarget.proposal_target_layer`).

Numpy float arrays are modelled as lists of exact rationals; a row of the
`proposals` array is a `ProposalRow` (batch id plus four coordinates) and a
row of `gt_boxes` is a `GtBox` (four coordinates plus a class id).  Numpy
calls that can raise (`max` over an empty axis, `np.random.choice` asked to
draw more than available without replacement) are modelled in `Except`.

The source method reads `im_shape` from an enclosing scope; following the
spec (section 4.1 open question and section 9) the image shape is passed
here as an explicit `(height, width)` parameter.  The external collaborators
that live outside this repository slice (`bbox_overlaps`, `bbox_transform`,
`unmap`, numpy's random stream) are modelled from the spec's contracts; the
box-to-offset encoder is kept as an abstract parameter `encode`, since the
layer only routes boxes into it.
-/

namespace RCNN

/-- Axis-aligned box `(x1, y1, x2, y2)`, one row of a numpy box array. -/
structure Box where
  x1 : ℚ
  y1 : ℚ
  x2 : ℚ
  y2 : ℚ
deriving DecidableEq, Repr, Inhabited

/-- Ground-truth row `(x1, y1, x2, y2, class)` of the `gt_boxes` array. -/
structure GtBox where
  x1 : ℚ
  y1 : ℚ
  x2 : ℚ
  y2 : ℚ
  cls : ℚ
deriving DecidableEq, Repr, Inhabited

/-- Proposal row `(batch, x1, y1, x2, y2)` of the `proposals` array. -/
structure ProposalRow where
  batch : ℚ
  x1 : ℚ
  y1 : ℚ
  x2 : ℚ
  y2 : ℚ
deriving DecidableEq, Repr, Inhabited

/-- Dropping the batch-id column: one row of `all_proposals = proposals[:, 1:]`. -/
def boxOf (r : ProposalRow) : Box := ⟨r.x1, r.y1, r.x2, r.y2⟩

/-- Geometric part (columns 0-3) of a ground-truth row. -/
def gtBox (g : GtBox) : Box := ⟨g.x1, g.y1, g.x2, g.y2⟩

/-- Bounding-box regression target `(dx, dy, dw, dh)`. -/
abbrev Vec4 := ℚ × ℚ × ℚ × ℚ

/-- Zero regression target, the fill value of both unmaps of `bbox_targets`. -/
def zero4 : Vec4 := (0, 0, 0, 0)

/-- Value `self._foreground_fraction = 0.25` fixed in `RCNNTarget.__init__`. -/
def foreground_fraction : ℚ := 1 / 4

/-- Value `self._batch_size = 64` fixed in `RCNNTarget.__init__`. -/
def batch_size : Nat := 64

/-- Value `self._foreground_threshold = 0.5` fixed in `RCNNTarget.__init__`. -/
def foreground_threshold : ℚ := 1 / 2

/-- Value `self._background_threshold_high = 0.5` fixed in `RCNNTarget.__init__`. -/
def background_threshold_high : ℚ := 1 / 2

/-- Value `self._background_threshold_low = 0.1` fixed in `RCNNTarget.__init__`. -/
def background_threshold_low : ℚ := 1 / 10

/-- Python `int()` truncation toward zero, applied to a rational. -/
def pyInt (q : ℚ) : Int := q.num.tdiv q.den

/-- Value `num_fg = int(self._foreground_fraction * self._batch_size)`. -/
def num_fg : Int := pyInt (foreground_fraction * (batch_size : ℚ))

/-- Numpy failure outcomes reachable from this layer: a reduction over an
empty axis, and a without-replacement `choice` asked for an impossible
sample size. -/
inductive NpError where
  | emptyReduce
  | badChoice
deriving DecidableEq, Repr

/-- Signed area of a box with the plain width-times-height convention. -/
def area (b : Box) : ℚ := (b.x2 - b.x1) * (b.y2 - b.y1)

/-- Modelled from the spec: the external overlap collaborator (spec section 6)
computes the Intersection-over-Union of two boxes; with rational division,
division by zero yields 0. -/
def iou (a b : Box) : ℚ :=
  let iw := min a.x2 b.x2 - max a.x1 b.x1
  let ih := min a.y2 b.y2 - max a.y1 b.y1
  if 0 < iw ∧ 0 < ih then (iw * ih) / (area a + area b - iw * ih) else 0

/-- Modelled from the spec: `bbox_overlaps` (external, spec section 6) returns
the matrix with entry `[p, g]` the IoU of valid proposal `p` and ground-truth
box `g`, and an empty matrix of the matching shape on zero-length input. -/
def bbox_overlaps (ps : List Box) (gts : List GtBox) : List (List ℚ) :=
  ps.map (fun p => gts.map (fun g => iou p (gtBox g)))

/-- Maximum of one row, as `numpy.max` computes it on a nonempty row. -/
def rowMax (r : List ℚ) : ℚ := r.foldl max (r.headD 0)

/-- Scanning state for the first-index argmax: remaining entries, next index,
best index so far, best value so far. -/
def rowArgmaxAux : List ℚ → Nat → Nat → ℚ → Nat
  | [], _, bi, _ => bi
  | v :: vs, i, bi, bv =>
      if bv < v then rowArgmaxAux vs (i + 1) i v else rowArgmaxAux vs (i + 1) bi bv

/-- First index attaining the row maximum (numpy `argmax` tie-breaking). -/
def rowArgmax : List ℚ → Nat
  | [] => 0
  | v :: vs => rowArgmaxAux vs 1 0 v

/-- Row-wise maximum `overlaps.max(axis=1)`; numpy raises when some row is
empty, which happens exactly when `gt_boxes` is empty while at least one
valid proposal remains. -/
def npMaxAxis1 (m : List (List ℚ)) : Except NpError (List ℚ) :=
  if m.all (fun row => !row.isEmpty) then .ok (m.map rowMax) else .error .emptyReduce

/-- Indices of the entries of `l` satisfying `q`, in increasing order:
`np.where(q(l))[0]` and `np.nonzero(q(l))[0]`. -/
def whereIdx {α : Type} (q : α → Bool) (l : List α) (d : α) : List Nat :=
  (List.range l.length).filter (fun i => q (l.getD i d))

/-- Position of the first occurrence of `i` in a list of indices. -/
def posOf (i : Nat) : List Nat → Option Nat
  | [] => none
  | j :: js => if j = i then some 0 else (posOf i js).map (· + 1)

/-- Entry `i` of the scattered array: the datum whose index is `i`, else the
fill value. -/
def unmapAt {α : Type} (data : List α) (inds : List Nat) (fill : α) (i : Nat) : α :=
  match posOf i inds with
  | some k => data.getD k fill
  | none => fill

/-- Modelled from the spec: the external index-scatter utility `unmap(data,
count, inds, fill)` (spec section 6) places `data[k]` at row `inds[k]` of a
length-`count` array and `fill` everywhere else. -/
def unmap {α : Type} (data : List α) (count : Nat) (inds : List Nat) (fill : α) : List α :=
  (List.range count).map (unmapAt data inds fill)

/-- Modelled from the spec: one step of the process-wide pseudo-random stream
(spec section 5); a linear congruential step stands in for numpy's global
generator. -/
def randNext (s : Nat) : Nat := (s * 1103515245 + 12345) % 2147483648

/-- State of the global random stream right after `np.random.seed(0)`. -/
def seedZero : Nat := 0

/-- Modelled from the spec: drawing `k` elements without replacement from
`pool`, threading the global stream state; each draw removes the chosen
element from the pool. -/
def choiceAux : Nat → List Nat → Nat → List Nat × Nat
  | 0, _, s => ([], s)
  | k + 1, pool, s =>
      let s' := randNext s
      let x := pool.getD (s' % pool.length) 0
      let rest := choiceAux k (pool.erase x) s'
      (x :: rest.1, rest.2)

/-- Modelled from the spec: `np.random.choice(pool, size, replace=False)`
raises when asked to draw more elements than the pool holds (or a negative
number); otherwise it samples `size` distinct elements. -/
def npChoice (pool : List Nat) (size : Int) (s : Nat) : Except NpError (List Nat × Nat) :=
  if 0 ≤ size ∧ size ≤ (pool.length : Int) then .ok (choiceAux size.toNat pool s)
  else .error .badChoice

/-- Label of one valid proposal after the masked assignments of Step 3: the
array is filled with -1, background 0 is assigned on the open overlap band,
then the foreground assignment `gt class + 1` executes last, so it wins
wherever both masks hold. -/
def rawLabel (gts : List GtBox) (mo : ℚ) (bg : Nat) : ℚ :=
  if foreground_threshold ≤ mo then (gts.getD bg default).cls + 1
  else if background_threshold_low < mo ∧ mo < background_threshold_high then 0
  else -1

/-- Step 3 labels of all valid proposals, one per overlap row, driven by the
row maximum `max_overlaps` and first-index argmax `overlaps_best_label`. -/
def rawLabels (overlaps : List (List ℚ)) (gts : List GtBox) : List ℚ :=
  overlaps.map (fun row => rawLabel gts (rowMax row) (rowArgmax row))

/-- Entry `i` of a label array after the masked update `labels[dis] = f(...)`. -/
def disableAt (labels : List ℚ) (dis : List Nat) (f : ℚ → ℚ) (i : Nat) : ℚ :=
  if i ∈ dis then f (labels.getD i 0) else labels.getD i 0

/-- Masked update `labels[dis] = f(labels[dis])` of a label array. -/
def applyDisable (labels : List ℚ) (dis : List Nat) (f : ℚ → ℚ) : List ℚ :=
  (List.range labels.length).map (disableAt labels dis f)

/-- Foreground subsampling: when more than `num_fg` proposals carry a label
of at least 1, a random excess is disabled by negating its label.  The
warning emitted when there are fewer foreground samples than wanted does not
change the outputs and is not modelled. -/
def fgStep (labels : List ℚ) (s : Nat) : Except NpError (List ℚ × Nat) :=
  let fg_inds := whereIdx (fun v => decide (1 ≤ v)) labels 0
  if num_fg < (fg_inds.length : Int) then
    match npChoice fg_inds ((fg_inds.length : Int) - num_fg) s with
    | .error e => .error e
    | .ok (dis, s') => .ok (applyDisable labels dis (fun v => -v), s')
  else .ok (labels, s)

/-- Background subsampling: `num_bg = batch_size - sum(labels >= 1)` slots
remain; a random excess of the zero-labelled proposals is set to -1. -/
def bgStep (labels : List ℚ) (s : Nat) : Except NpError (List ℚ × Nat) :=
  let num_bg : Int := (batch_size : Int) - (labels.countP (fun v => decide (1 ≤ v)) : Int)
  let bg_inds := whereIdx (fun v => decide (v = 0)) labels 0
  if num_bg < (bg_inds.length : Int) then
    match npChoice bg_inds ((bg_inds.length : Int) - num_bg) s with
    | .error e => .error e
    | .ok (dis, s') => .ok (applyDisable labels dis (fun _ => -1), s')
  else .ok (labels, s)

/-- Step 5 plus the first unmap of Step 6: regression targets are encoded for
exactly the indices with a strictly positive label, each against the
ground-truth box of the first-index argmax of its overlap row, then scattered
back over the valid proposals with zero fill. -/
def targetsStage (encode : Box → Box → Vec4) (props : List Box) (gts : List GtBox)
    (labels : List ℚ) : List Vec4 :=
  let proposal_with_target_idx := whereIdx (fun v => decide (0 < v)) labels 0
  let top_gt_idx := (bbox_overlaps props gts).map rowArgmax
  let gt_boxes_ids := proposal_with_target_idx.map (fun i => top_gt_idx.getD i 0)
  let proposals_gt_boxes := gt_boxes_ids.map (fun j => gts.getD j default)
  let proposals_with_target := proposal_with_target_idx.map (fun i => props.getD i default)
  let bbox_targets :=
    List.zipWith (fun p g => encode p (gtBox g)) proposals_with_target proposals_gt_boxes
  unmap bbox_targets labels.length proposal_with_target_idx zero4

/-- Step 1 predicate: the proposal lies fully inside the image, with
`im_shape = (height, width)` so that `x2 < im_shape[1]` and
`y2 < im_shape[0]`. -/
def insidePred (im_shape : ℚ × ℚ) (b : Box) : Bool :=
  decide (0 ≤ b.x1) && decide (0 ≤ b.y1) &&
    decide (b.x2 < im_shape.2) && decide (b.y2 < im_shape.1)

/-- Original indices `inds_inside` of the proposals fully inside the image. -/
def inds_inside (all : List Box) (im_shape : ℚ × ℚ) : List Nat :=
  whereIdx (insidePred im_shape) all default

/-- Valid (inside-image) proposals in original order,
`proposals = all_proposals[inds_inside, :]`. -/
def validProps (all : List Box) (im_shape : ℚ × ℚ) : List Box :=
  (inds_inside all im_shape).map (fun i => all.getD i default)

/-- Shallow embedding of `RCNNTarget.proposal_target_layer`.  The `rng`
argument is the state of the process-wide random stream when the call
starts; the method begins with `np.random.seed(0)`, so that state is
discarded and sampling always starts from `seedZero`. -/
def proposal_target_layer (encode : Box → Box → Vec4) (proposals : List ProposalRow)
    (gt_boxes : List GtBox) (im_shape : ℚ × ℚ) (rng : Nat) :
    Except NpError (List ℚ × List Vec4) :=
  let all_proposals := proposals.map boxOf
  let inds := inds_inside all_proposals im_shape
  let props := validProps all_proposals im_shape
  let overlaps := bbox_overlaps props gt_boxes
  match npMaxAxis1 overlaps with
  | .error e => .error e
  | .ok _max_overlaps =>
    match fgStep (rawLabels overlaps gt_boxes) seedZero with
    | .error e => .error e
    | .ok (labels2, s2) =>
      match bgStep labels2 s2 with
      | .error e => .error e
      | .ok (labels3, _s3) =>
        let bbox_targets := unmap (targetsStage encode props gt_boxes labels3)
          all_proposals.length inds zero4
        let proposals_label := unmap labels3 all_proposals.length inds (-1)
        .ok (proposals_label, bbox_targets)

/-- Concrete stand-in for the abstract box-to-offset encoder, used only to
evaluate the theorems on explicit inputs; the layer itself is verified for an
arbitrary encoder. -/
def sampleEncode (p g : Box) : Vec4 :=
  (g.x1 - p.x1, g.y1 - p.y1, g.x2 - p.x2, g.y2 - p.y2)

/-! Generic list bookkeeping: reading mapped ranges, positions of indices,
and the scatter utility. -/

theorem getD_eq_getElem' {α : Type} (l : List α) (i : Nat) (d : α) (h : i < l.length) :
    l.getD i d = l[i] := by
  simp [List.getD_eq_getElem?_getD, List.getElem?_eq_getElem h]

theorem getD_map {α β : Type} (f : α → β) (l : List α) (i : Nat) (d : β) (d' : α)
    (h : i < l.length) : (l.map f).getD i d = f (l.getD i d') := by
  rw [getD_eq_getElem' _ _ _ (by simpa using h), getD_eq_getElem' _ _ _ h]
  simp

theorem getD_range (n i d : Nat) (h : i < n) : (List.range n).getD i d = i := by
  rw [getD_eq_getElem' _ _ _ (by simpa using h)]
  simp

theorem map_getD_range {α : Type} (l : List α) (d : α) :
    (List.range l.length).map (fun i => l.getD i d) = l := by
  apply List.ext_getElem (by simp)
  intro i h1 h2
  simp [getD_eq_getElem' l i d h2, List.getElem?_eq_getElem h2]

theorem posOf_eq_none {i : Nat} : ∀ {l : List Nat}, posOf i l = none ↔ i ∉ l := by
  intro l
  induction l with
  | nil => simp [posOf]
  | cons j js ih =>
    by_cases hj : j = i
    · subst hj; simp [posOf]
    · simp only [posOf, if_neg hj, Option.map_eq_none', ih, List.mem_cons]
      constructor
      · rintro hnotin (rfl | hmem)
        · exact hj rfl
        · exact hnotin hmem
      · exact fun hn hmem => hn (Or.inr hmem)

theorem posOf_spec {i : Nat} :
    ∀ {l : List Nat} {k : Nat}, posOf i l = some k → k < l.length ∧ l.getD k 0 = i := by
  intro l
  induction l with
  | nil => intro k h; simp [posOf] at h
  | cons j js ih =>
    intro k h
    by_cases hj : j = i
    · rw [posOf, if_pos hj] at h
      simp only [Option.some.injEq] at h
      subst h
      exact ⟨Nat.succ_pos _, hj⟩
    · rw [posOf, if_neg hj] at h
      rw [Option.map_eq_some'] at h
      obtain ⟨k', hk', rfl⟩ := h
      obtain ⟨h1, h2⟩ := ih hk'
      exact ⟨Nat.succ_lt_succ h1, h2⟩

theorem posOf_getD_of_nodup :
    ∀ {l : List Nat}, l.Nodup → ∀ {k : Nat}, k < l.length → posOf (l.getD k 0) l = some k := by
  intro l
  induction l with
  | nil => intro _ k h; simp at h
  | cons j js ih =>
    intro hnd k hk
    cases k with
    | zero => simp [posOf]
    | succ k' =>
      have hk' : k' < js.length := by simpa using hk
      have hmem : js.getD k' 0 ∈ js := by
        rw [getD_eq_getElem' _ _ _ hk']; exact List.getElem_mem hk'
      have hne : ¬ j = js.getD k' 0 := fun he => (List.nodup_cons.mp hnd).1 (he ▸ hmem)
      simp only [List.getD_cons_succ, posOf, if_neg hne, ih (List.nodup_cons.mp hnd).2 hk']
      rfl

theorem unmapAt_posOf {α : Type} (data : List α) (inds : List Nat) (fill : α)
    (i k : Nat) (h : posOf i inds = some k) :
    unmapAt data inds fill i = data.getD k fill := by
  rw [unmapAt, h]

theorem unmap_length {α : Type} (data : List α) (count : Nat) (inds : List Nat) (fill : α) :
    (unmap data count inds fill).length = count := by
  simp [unmap]

theorem unmap_getD {α : Type} (data : List α) (count : Nat) (inds : List Nat) (fill : α)
    (i : Nat) (d : α) (h : i < count) :
    (unmap data count inds fill).getD i d = unmapAt data inds fill i := by
  rw [unmap, getD_map _ _ _ _ 0 (by simpa using h), getD_range _ _ _ h]

theorem unmapAt_not_mem {α : Type} (data : List α) (inds : List Nat) (fill : α) (i : Nat)
    (h : i ∉ inds) : unmapAt data inds fill i = fill := by
  rw [unmapAt, posOf_eq_none.mpr h]

theorem mem_whereIdx {α : Type} {q : α → Bool} {l : List α} {d : α} {i : Nat} :
    i ∈ whereIdx q l d ↔ i < l.length ∧ q (l.getD i d) := by
  simp [whereIdx, List.mem_filter, List.mem_range]

theorem whereIdx_nodup {α : Type} (q : α → Bool) (l : List α) (d : α) :
    (whereIdx q l d).Nodup :=
  (List.nodup_range _).filter _

theorem whereIdx_length {α : Type} (q : α → Bool) (l : List α) (d : α) :
    (whereIdx q l d).length = l.countP q := by
  rw [whereIdx, ← List.countP_eq_length_filter]
  conv_rhs => rw [← map_getD_range l d]
  rw [List.countP_map]
  rfl

/-! Counting through the scatter and through the masked disabling. -/

theorem countP_unmap {α : Type} (p : α → Bool) (data : List α) (count : Nat)
    (inds : List Nat) (fill : α) (hnd : inds.Nodup) (hb : ∀ j ∈ inds, j < count)
    (hlen : data.length = inds.length) (hfill : p fill = false) :
    (unmap data count inds fill).countP p = data.countP p := by
  have hperm : List.Perm ((List.range count).filter (fun i => decide (i ∈ inds))) inds := by
    rw [List.perm_ext_iff_of_nodup ((List.nodup_range count).filter _) hnd]
    intro a
    simp only [List.mem_filter, List.mem_range, decide_eq_true_eq]
    exact ⟨fun h => h.2, fun h => ⟨hb a h, h⟩⟩
  have hmap : inds.map (unmapAt data inds fill) = data := by
    apply List.ext_getElem (by simp [hlen])
    intro k h1 h2
    have hk : k < inds.length := by simpa using h1
    rw [List.getElem_map, ← getD_eq_getElem' inds k 0 hk, unmapAt,
      posOf_getD_of_nodup hnd hk]
    exact getD_eq_getElem' data k fill h2
  have hsplit := List.filter_append_perm (fun i => decide (i ∈ inds)) (List.range count)
  rw [unmap, List.countP_map, ← List.Perm.countP_eq _ hsplit, List.countP_append]
  have hzero : (List.countP (unmapAt data inds fill · |> p)
      ((List.range count).filter fun i => !decide (i ∈ inds))) = 0 := by
    rw [List.countP_eq_zero]
    intro a ha
    have hnotin : a ∉ inds := by
      have := (List.mem_filter.mp ha).2
      simpa using this
    simp [unmapAt_not_mem data inds fill a hnotin, hfill]
  rw [show ((unmapAt data inds fill · |> p)) = (p ∘ unmapAt data inds fill) from rfl] at hzero
  rw [hzero, List.Perm.countP_eq _ hperm]
  conv_rhs => rw [← hmap]
  rw [List.countP_map]
  omega

theorem countP_applyDisable (p : ℚ → Bool) (labels : List ℚ) (dis : List Nat) (f : ℚ → ℚ)
    (hnd : dis.Nodup) (hb : ∀ i ∈ dis, i < labels.length) :
    (applyDisable labels dis f).countP p + dis.countP (fun i => p (labels.getD i 0))
      = labels.countP p + dis.countP (fun i => p (f (labels.getD i 0))) := by
  have hperm : List.Perm ((List.range labels.length).filter (fun i => decide (i ∈ dis))) dis := by
    rw [List.perm_ext_iff_of_nodup ((List.nodup_range _).filter _) hnd]
    intro a
    simp only [List.mem_filter, List.mem_range, decide_eq_true_eq]
    exact ⟨fun h => h.2, fun h => ⟨hb a h, h⟩⟩
  have hsplit := List.filter_append_perm (fun i => decide (i ∈ dis)) (List.range labels.length)
  have hL : (applyDisable labels dis f).countP p
      = dis.countP (fun i => p (f (labels.getD i 0)))
        + ((List.range labels.length).filter (fun i => !decide (i ∈ dis))).countP
            (fun i => p (labels.getD i 0)) := by
    rw [applyDisable, List.countP_map, ← List.Perm.countP_eq _ hsplit, List.countP_append]
    congr 1
    · rw [List.Perm.countP_eq _ hperm]
      exact List.countP_congr (fun i hi => by simp [Function.comp, disableAt, if_pos hi])
    · exact List.countP_congr (fun i hi => by
        have hnotin : i ∉ dis := by simpa using (List.mem_filter.mp hi).2
        simp [Function.comp, disableAt, if_neg hnotin])
  have hR : labels.countP p
      = dis.countP (fun i => p (labels.getD i 0))
        + ((List.range labels.length).filter (fun i => !decide (i ∈ dis))).countP
            (fun i => p (labels.getD i 0)) := by
    conv_lhs => rw [← map_getD_range labels 0]
    rw [List.countP_map, ← List.Perm.countP_eq _ hsplit, List.countP_append]
    congr 1
    rw [List.Perm.countP_eq _ hperm]
    rfl
  omega

/-! The without-replacement sampling draw. -/

theorem choiceAux_succ (k : Nat) (pool : List Nat) (s : Nat) :
    choiceAux (k + 1) pool s =
      (pool.getD (randNext s % pool.length) 0 ::
        (choiceAux k (pool.erase (pool.getD (randNext s % pool.length) 0)) (randNext s)).1,
       (choiceAux k (pool.erase (pool.getD (randNext s % pool.length) 0)) (randNext s)).2) :=
  rfl

theorem choiceAux_spec :
    ∀ (k : Nat) (pool : List Nat) (s : Nat), k ≤ pool.length → pool.Nodup →
      (choiceAux k pool s).1.length = k ∧ (∀ x ∈ (choiceAux k pool s).1, x ∈ pool)
        ∧ (choiceAux k pool s).1.Nodup := by
  intro k
  induction k with
  | zero => intro pool s _ _; simp [choiceAux]
  | succ k ih =>
    intro pool s hk hnd
    have hpos : 0 < pool.length := Nat.lt_of_lt_of_le (Nat.succ_pos k) hk
    have hxmem : pool.getD (randNext s % pool.length) 0 ∈ pool := by
      rw [getD_eq_getElem' _ _ _ (Nat.mod_lt _ hpos)]
      exact List.getElem_mem _
    have herase : (pool.erase (pool.getD (randNext s % pool.length) 0)).length
        = pool.length - 1 := List.length_erase_of_mem hxmem
    have hkle : k ≤ (pool.erase (pool.getD (randNext s % pool.length) 0)).length := by
      omega
    obtain ⟨ihl, ihs, ihn⟩ := ih (pool.erase _) (randNext s) hkle (hnd.erase _)
    rw [choiceAux_succ]
    refine ⟨by simpa using ihl, ?_, ?_⟩
    · intro x hx
      rcases List.mem_cons.mp hx with rfl | hx'
      · exact hxmem
      · exact List.mem_of_mem_erase (ihs x hx')
    · rw [List.nodup_cons]
      refine ⟨fun hcon => ?_, ihn⟩
      exact hnd.not_mem_erase (ihs _ hcon)

theorem npChoice_isOk (pool : List Nat) (size : Int) (s : Nat) (h0 : 0 ≤ size)
    (hle : size ≤ (pool.length : Int)) :
    npChoice pool size s = .ok (choiceAux size.toNat pool s) := by
  rw [npChoice, if_pos ⟨h0, hle⟩]

theorem npChoice_ok {pool : List Nat} {size : Int} {s : Nat} {dis : List Nat} {s' : Nat}
    (h : npChoice pool size s = .ok (dis, s')) (hnd : pool.Nodup) :
    (dis.length : Int) = size ∧ (∀ x ∈ dis, x ∈ pool) ∧ dis.Nodup := by
  rw [npChoice] at h
  split at h
  · rename_i hcond
    obtain ⟨h0, hle⟩ := hcond
    have hsz : size.toNat ≤ pool.length := by omega
    obtain ⟨hl, hs, hn⟩ := choiceAux_spec size.toNat pool s hsz hnd
    injection h with h
    have hfst : (choiceAux size.toNat pool s).1 = dis := by rw [h]
    rw [hfst] at hl hs hn
    refine ⟨by omega, hs, hn⟩
  · exact Except.noConfusion h

/-! Inversion and counting facts for the two subsampling steps. -/

theorem num_fg_eq : num_fg = 16 := by
  have h : foreground_fraction * (batch_size : ℚ) = 16 := by
    rw [foreground_fraction, batch_size]
    norm_num
  rw [num_fg, pyInt, h]
  rfl

theorem fgStep_ok_inv {labels : List ℚ} {s : Nat} {l' : List ℚ} {s' : Nat}
    (h : fgStep labels s = .ok (l', s')) :
    (l' = labels ∧ (whereIdx (fun v => decide (1 ≤ v)) labels 0).length ≤ 16)
    ∨ ∃ dis : List Nat, dis.Nodup ∧ (∀ i ∈ dis, i < labels.length ∧ 1 ≤ labels.getD i 0)
        ∧ 16 < (whereIdx (fun v => decide (1 ≤ v)) labels 0).length
        ∧ dis.length = (whereIdx (fun v => decide (1 ≤ v)) labels 0).length - 16
        ∧ l' = applyDisable labels dis (fun v => -v) := by
  simp only [fgStep] at h
  split at h
  · rename_i hgt
    rw [num_fg_eq] at hgt
    split at h
    · exact Except.noConfusion h
    · rename_i pair dis s2 heq
      injection h with h
      injection h with h1 h2
      obtain ⟨hdl, hds, hdn⟩ :=
        npChoice_ok heq (whereIdx_nodup (fun v => decide (1 ≤ v)) labels 0)
      rw [num_fg_eq] at hdl
      refine Or.inr ⟨dis, hdn, ?_, by omega, by omega, h1.symm⟩
      intro i hi
      have hm := mem_whereIdx.mp (hds i hi)
      exact ⟨hm.1, by simpa using hm.2⟩
  · rename_i hle
    rw [num_fg_eq] at hle
    injection h with h
    injection h with h1 h2
    exact Or.inl ⟨h1.symm, by omega⟩

theorem fgStep_isOk (labels : List ℚ) (s : Nat) : ∃ out, fgStep labels s = .ok out := by
  simp only [fgStep]
  split
  · rename_i hgt
    rw [num_fg_eq] at hgt
    rw [num_fg_eq, npChoice_isOk _ _ _ (by omega) (by omega)]
    exact ⟨_, rfl⟩
  · exact ⟨_, rfl⟩

theorem fgStep_length {labels : List ℚ} {s : Nat} {l' : List ℚ} {s' : Nat}
    (h : fgStep labels s = .ok (l', s')) : l'.length = labels.length := by
  rcases fgStep_ok_inv h with ⟨rfl, _⟩ | ⟨dis, _, _, _, _, rfl⟩
  · rfl
  · simp [applyDisable]

theorem fgStep_countFg {labels : List ℚ} {s : Nat} {l' : List ℚ} {s' : Nat}
    (h : fgStep labels s = .ok (l', s')) :
    l'.countP (fun v => decide (1 ≤ v)) ≤ 16 := by
  rcases fgStep_ok_inv h with ⟨rfl, hle⟩ | ⟨dis, hnd, hmem, hgt, hlen, rfl⟩
  · rw [← whereIdx_length (fun v => decide (1 ≤ v)) l' 0]
    exact hle
  · have hkey := countP_applyDisable (fun v => decide (1 ≤ v)) labels dis (fun v => -v)
      hnd (fun i hi => (hmem i hi).1)
    beta_reduce at hkey
    have h1 : dis.countP (fun i => decide (1 ≤ labels.getD i 0)) = dis.length :=
      List.countP_eq_length.mpr (fun i hi => by simpa using (hmem i hi).2)
    have h2 : dis.countP (fun i => decide (1 ≤ -labels.getD i 0)) = 0 :=
      List.countP_eq_zero.mpr (fun i hi => by
        have hv := (hmem i hi).2
        simp only [decide_eq_true_eq]
        intro hcon
        linarith)
    rw [← whereIdx_length (fun v => decide (1 ≤ v)) labels 0] at hkey
    omega

theorem fgStep_countZero {labels : List ℚ} {s : Nat} {l' : List ℚ} {s' : Nat}
    (h : fgStep labels s = .ok (l', s')) :
    l'.countP (fun v => decide (v = 0)) = labels.countP (fun v => decide (v = 0)) := by
  rcases fgStep_ok_inv h with ⟨rfl, _⟩ | ⟨dis, hnd, hmem, _, _, rfl⟩
  · rfl
  · have hkey := countP_applyDisable (fun v => decide (v = 0)) labels dis (fun v => -v)
      hnd (fun i hi => (hmem i hi).1)
    beta_reduce at hkey
    have h1 : dis.countP (fun i => decide (labels.getD i 0 = 0)) = 0 :=
      List.countP_eq_zero.mpr (fun i hi => by
        have hv := (hmem i hi).2
        simp only [decide_eq_true_eq]
        intro hcon
        rw [hcon] at hv
        linarith)
    have h2 : dis.countP (fun i => decide (-labels.getD i 0 = 0)) = 0 :=
      List.countP_eq_zero.mpr (fun i hi => by
        have hv := (hmem i hi).2
        simp only [decide_eq_true_eq]
        intro hcon
        have : labels.getD i 0 = 0 := by linarith
        rw [this] at hv
        linarith)
    omega

theorem fgStep_pointwise {labels : List ℚ} {s : Nat} {l' : List ℚ} {s' : Nat}
    (h : fgStep labels s = .ok (l', s')) (i : Nat) (hi : i < labels.length) :
    l'.getD i 0 = labels.getD i 0
    ∨ (1 ≤ labels.getD i 0 ∧ l'.getD i 0 = -labels.getD i 0) := by
  rcases fgStep_ok_inv h with ⟨rfl, _⟩ | ⟨dis, hnd, hmem, _, _, rfl⟩
  · exact Or.inl rfl
  · rw [applyDisable, getD_map _ _ _ _ 0 (by simpa using hi), getD_range _ _ _ hi]
    by_cases hd : i ∈ dis
    · exact Or.inr ⟨(hmem i hd).2, by rw [disableAt, if_pos hd]⟩
    · exact Or.inl (by rw [disableAt, if_neg hd])

theorem bgStep_ok_inv {labels : List ℚ} {s : Nat} {l' : List ℚ} {s' : Nat}
    (h : bgStep labels s = .ok (l', s')) :
    (l' = labels
      ∧ ((whereIdx (fun v => decide (v = 0)) labels 0).length : Int)
          ≤ (batch_size : Int) - (labels.countP (fun v => decide (1 ≤ v)) : Int))
    ∨ ∃ dis : List Nat, dis.Nodup ∧ (∀ i ∈ dis, i < labels.length ∧ labels.getD i 0 = 0)
        ∧ (batch_size : Int) - (labels.countP (fun v => decide (1 ≤ v)) : Int)
            < ((whereIdx (fun v => decide (v = 0)) labels 0).length : Int)
        ∧ (dis.length : Int)
            = ((whereIdx (fun v => decide (v = 0)) labels 0).length : Int)
              - ((batch_size : Int) - (labels.countP (fun v => decide (1 ≤ v)) : Int))
        ∧ l' = applyDisable labels dis (fun _ => -1) := by
  simp only [bgStep] at h
  split at h
  · rename_i hgt
    split at h
    · exact Except.noConfusion h
    · rename_i pair dis s2 heq
      injection h with h
      injection h with h1 h2
      obtain ⟨hdl, hds, hdn⟩ :=
        npChoice_ok heq (whereIdx_nodup (fun v => decide (v = 0)) labels 0)
      refine Or.inr ⟨dis, hdn, ?_, hgt, hdl, h1.symm⟩
      intro i hi
      have hm := mem_whereIdx.mp (hds i hi)
      exact ⟨hm.1, by simpa using hm.2⟩
  · rename_i hle
    injection h with h
    injection h with h1 h2
    exact Or.inl ⟨h1.symm, by omega⟩

theorem bgStep_isOk (labels : List ℚ) (s : Nat)
    (hc : labels.countP (fun v => decide (1 ≤ v)) ≤ batch_size) :
    ∃ out, bgStep labels s = .ok out := by
  simp only [bgStep]
  split
  · rename_i hgt
    rw [npChoice_isOk _ _ _ (by omega) (by omega)]
    exact ⟨_, rfl⟩
  · exact ⟨_, rfl⟩

theorem bgStep_length {labels : List ℚ} {s : Nat} {l' : List ℚ} {s' : Nat}
    (h : bgStep labels s = .ok (l', s')) : l'.length = labels.length := by
  rcases bgStep_ok_inv h with ⟨rfl, _⟩ | ⟨dis, _, _, _, _, rfl⟩
  · rfl
  · simp [applyDisable]

theorem bgStep_countFg {labels : List ℚ} {s : Nat} {l' : List ℚ} {s' : Nat}
    (h : bgStep labels s = .ok (l', s')) :
    l'.countP (fun v => decide (1 ≤ v)) = labels.countP (fun v => decide (1 ≤ v)) := by
  rcases bgStep_ok_inv h with ⟨rfl, _⟩ | ⟨dis, hnd, hmem, _, _, rfl⟩
  · rfl
  · have hkey := countP_applyDisable (fun v => decide (1 ≤ v)) labels dis (fun _ => -1)
      hnd (fun i hi => (hmem i hi).1)
    beta_reduce at hkey
    have h1 : dis.countP (fun i => decide (1 ≤ labels.getD i 0)) = 0 :=
      List.countP_eq_zero.mpr (fun i hi => by
        have hv := (hmem i hi).2
        simp only [decide_eq_true_eq]
        intro hcon
        rw [hv] at hcon
        linarith)
    have h2 : dis.countP (fun _ => decide ((1 : ℚ) ≤ -1)) = 0 :=
      List.countP_eq_zero.mpr (fun i hi => by norm_num)
    omega

theorem bgStep_countZero {labels : List ℚ} {s : Nat} {l' : List ℚ} {s' : Nat}
    (h : bgStep labels s = .ok (l', s'))
    (hc : labels.countP (fun v => decide (1 ≤ v)) ≤ batch_size) :
    l'.countP (fun v => decide (v = 0))
      = min (labels.countP (fun v => decide (v = 0)))
          (batch_size - labels.countP (fun v => decide (1 ≤ v))) := by
  rcases bgStep_ok_inv h with ⟨rfl, hle⟩ | ⟨dis, hnd, hmem, hgt, hlen, rfl⟩
  · rw [whereIdx_length] at hle
    omega
  · have hkey := countP_applyDisable (fun v => decide (v = 0)) labels dis (fun _ => -1)
      hnd (fun i hi => (hmem i hi).1)
    beta_reduce at hkey
    have h1 : dis.countP (fun i => decide (labels.getD i 0 = 0)) = dis.length :=
      List.countP_eq_length.mpr (fun i hi => by simpa using (hmem i hi).2)
    have h2 : dis.countP (fun _ => decide ((-1 : ℚ) = 0)) = 0 :=
      List.countP_eq_zero.mpr (fun i hi => by norm_num)
    rw [whereIdx_length] at hgt hlen
    omega

theorem bgStep_pointwise {labels : List ℚ} {s : Nat} {l' : List ℚ} {s' : Nat}
    (h : bgStep labels s = .ok (l', s')) (i : Nat) (hi : i < labels.length) :
    l'.getD i 0 = labels.getD i 0
    ∨ (labels.getD i 0 = 0 ∧ l'.getD i 0 = -1) := by
  rcases bgStep_ok_inv h with ⟨rfl, _⟩ | ⟨dis, hnd, hmem, _, _, rfl⟩
  · exact Or.inl rfl
  · rw [applyDisable, getD_map _ _ _ _ 0 (by simpa using hi), getD_range _ _ _ hi]
    by_cases hd : i ∈ dis
    · exact Or.inr ⟨(hmem i hd).2, by rw [disableAt, if_pos hd]⟩
    · exact Or.inl (by rw [disableAt, if_neg hd])

/-! Length bookkeeping along the pipeline, and inversion of a successful run. -/

theorem bbox_overlaps_length (ps : List Box) (gts : List GtBox) :
    (bbox_overlaps ps gts).length = ps.length := by
  simp [bbox_overlaps]

theorem rawLabels_length (ov : List (List ℚ)) (gts : List GtBox) :
    (rawLabels ov gts).length = ov.length := by
  simp [rawLabels]

theorem validProps_length (all : List Box) (im : ℚ × ℚ) :
    (validProps all im).length = (inds_inside all im).length := by
  simp [validProps]

theorem getD_mem_or {α : Type} (l : List α) (i : Nat) (d : α) :
    l.getD i d ∈ l ∨ l.getD i d = d := by
  by_cases h : i < l.length
  · left
    rw [getD_eq_getElem' _ _ _ h]
    exact List.getElem_mem h
  · right
    rw [List.getD_eq_getElem?_getD, List.getElem?_eq_none (by omega)]
    rfl

theorem rawLabel_cases (gts : List GtBox) (hcls : ∀ g ∈ gts, ∃ m : ℕ, g.cls = (m : ℚ))
    (mo : ℚ) (bg : Nat) :
    rawLabel gts mo bg = -1 ∨ rawLabel gts mo bg = 0
    ∨ ∃ m : ℕ, rawLabel gts mo bg = (m : ℚ) + 1 := by
  have hc : ∃ m : ℕ, (gts.getD bg default).cls = (m : ℚ) := by
    rcases getD_mem_or gts bg default with hmem | heq
    · exact hcls _ hmem
    · refine ⟨0, ?_⟩
      rw [heq]
      rfl
  rw [rawLabel]
  split
  · obtain ⟨m, hm⟩ := hc
    exact Or.inr (Or.inr ⟨m, by rw [hm]⟩)
  · split
    · exact Or.inr (Or.inl rfl)
    · exact Or.inl rfl

theorem run_ok_inv {encode : Box → Box → Vec4} {P : List ProposalRow} {G : List GtBox}
    {im : ℚ × ℚ} {rng : Nat} {labels : List ℚ} {targets : List Vec4}
    (h : proposal_target_layer encode P G im rng = .ok (labels, targets)) :
    ∃ l2 s2 l3 s3,
      fgStep (rawLabels (bbox_overlaps (validProps (P.map boxOf) im) G) G) seedZero
          = .ok (l2, s2)
      ∧ bgStep l2 s2 = .ok (l3, s3)
      ∧ labels = unmap l3 (P.map boxOf).length (inds_inside (P.map boxOf) im) (-1)
      ∧ targets = unmap (targetsStage encode (validProps (P.map boxOf) im) G l3)
          (P.map boxOf).length (inds_inside (P.map boxOf) im) zero4 := by
  simp only [proposal_target_layer] at h
  split at h
  · exact Except.noConfusion h
  · split at h
    · exact Except.noConfusion h
    · rename_i l2 s2 hfg
      split at h
      · exact Except.noConfusion h
      · rename_i l3 s3 hbg
        injection h with h
        injection h with h1 h2
        exact ⟨l2, s2, l3, s3, hfg, hbg, h1.symm, h2.symm⟩

theorem run_cases (encode : Box → Box → Vec4) (P : List ProposalRow) (G : List GtBox)
    (im : ℚ × ℚ) (rng : Nat) :
    (∃ out, proposal_target_layer encode P G im rng = .ok out)
    ∨ proposal_target_layer encode P G im rng = .error .emptyReduce := by
  simp only [proposal_target_layer]
  cases hmax : npMaxAxis1 (bbox_overlaps (validProps (P.map boxOf) im) G) with
  | error e =>
    have he : e = .emptyReduce := by
      rw [npMaxAxis1] at hmax
      split at hmax
      · exact Except.noConfusion hmax
      · injection hmax with hmax
        exact hmax.symm
    subst he
    exact Or.inr rfl
  | ok mo =>
    obtain ⟨⟨l2, s2⟩, hfg⟩ :=
      fgStep_isOk (rawLabels (bbox_overlaps (validProps (P.map boxOf) im) G) G) seedZero
    have hcnt : l2.countP (fun v => decide (1 ≤ v)) ≤ batch_size := by
      have h16 := fgStep_countFg hfg
      rw [batch_size]
      omega
    obtain ⟨⟨l3, s3⟩, hbg⟩ := bgStep_isOk l2 s2 hcnt
    simp only [hfg, hbg]
    exact Or.inl ⟨_, rfl⟩

/-! Pointwise views of the labelling, the valid-proposal gather and the
regression-target stage. -/

theorem rawLabels_getD (ov : List (List ℚ)) (gts : List GtBox) (v : Nat) (hv : v < ov.length) :
    (rawLabels ov gts).getD v 0
      = rawLabel gts (rowMax (ov.getD v [])) (rowArgmax (ov.getD v [])) := by
  rw [rawLabels, getD_map _ _ _ _ [] hv]

theorem bbox_overlaps_getD (ps : List Box) (gts : List GtBox) (v : Nat) (hv : v < ps.length) :
    (bbox_overlaps ps gts).getD v []
      = gts.map (fun g => iou (ps.getD v default) (gtBox g)) := by
  rw [bbox_overlaps, getD_map _ _ _ _ default hv]

theorem validProps_getD {all : List Box} {im : ℚ × ℚ} {v p : Nat}
    (hv : v < (inds_inside all im).length) (hval : (inds_inside all im).getD v 0 = p) :
    (validProps all im).getD v default = all.getD p default := by
  rw [validProps, getD_map _ _ _ _ 0 hv, hval]

theorem zipWith_map_same {α β γ δ : Type} (f : β → γ → δ) (g1 : α → β) (g2 : α → γ)
    (l : List α) :
    List.zipWith f (l.map g1) (l.map g2) = l.map (fun x => f (g1 x) (g2 x)) := by
  induction l with
  | nil => rfl
  | cons x xs ih => simp [ih]

theorem targetsStage_getD (encode : Box → Box → Vec4) (props : List Box) (gts : List GtBox)
    (labels : List ℚ) (hlen : labels.length = props.length) (v : Nat) (hv : v < labels.length) :
    (targetsStage encode props gts labels).getD v zero4
      = if 0 < labels.getD v 0 then
          encode (props.getD v default)
            (gtBox (gts.getD (rowArgmax ((bbox_overlaps props gts).getD v [])) default))
        else zero4 := by
  simp only [targetsStage]
  rw [List.map_map, zipWith_map_same, unmap_getD _ _ _ _ v zero4 hv]
  by_cases hpos : 0 < labels.getD v 0
  · rw [if_pos hpos]
    have hmem : v ∈ whereIdx (fun w => decide (0 < w)) labels 0 :=
      mem_whereIdx.mpr ⟨hv, by simpa using hpos⟩
    cases hposOf : posOf v (whereIdx (fun w => decide (0 < w)) labels 0) with
    | none => exact absurd (posOf_eq_none.mp hposOf) (by simpa using hmem)
    | some k =>
      obtain ⟨hklen, hkval⟩ := posOf_spec hposOf
      rw [unmapAt_posOf _ _ _ _ _ hposOf, getD_map _ _ _ _ 0 hklen, hkval]
      have hvlt : v < (bbox_overlaps props gts).length := by
        rw [bbox_overlaps_length]
        omega
      simp only [Function.comp]
      rw [getD_map rowArgmax (bbox_overlaps props gts) v 0 [] hvlt]
  · rw [if_neg hpos]
    have hnmem : v ∉ whereIdx (fun w => decide (0 < w)) labels 0 := by
      intro hmem
      exact hpos (by simpa using (mem_whereIdx.mp hmem).2)
    rw [unmapAt_not_mem _ _ _ _ hnmem]

/-- C1: for every valid (inside-image) proposal, the raw Step 3 label is
background `0` exactly when the row maximum overlap lies strictly between the
background thresholds, is `bestGt class + 1` exactly when the row maximum
reaches the foreground threshold, and is ignore `-1` otherwise; in
particular, with the default thresholds, a maximum overlap of exactly `1/2`
is labelled foreground, not background. -/
theorem C1_raw_label_policy (props : List Box) (gts : List GtBox)
    (hcls : ∀ g ∈ gts, ∃ m : ℕ, g.cls = (m : ℚ))
    (i : Nat) (hi : i < props.length) (mo : ℚ) (bg : Nat) (lab : ℚ)
    (hmo : mo = rowMax ((bbox_overlaps props gts).getD i []))
    (hbg : bg = rowArgmax ((bbox_overlaps props gts).getD i []))
    (hlab : lab = (rawLabels (bbox_overlaps props gts) gts).getD i 0) :
    (lab = 0 ↔ background_threshold_low < mo ∧ mo < background_threshold_high)
    ∧ (lab = (gts.getD bg default).cls + 1 ↔ foreground_threshold ≤ mo)
    ∧ (¬ (background_threshold_low < mo ∧ mo < background_threshold_high)
        → ¬ foreground_threshold ≤ mo → lab = -1)
    ∧ (mo = 1 / 2 → lab = (gts.getD bg default).cls + 1 ∧ lab ≠ 0) := by
  have hi' : i < (bbox_overlaps props gts).length := by
    rw [bbox_overlaps_length]
    exact hi
  rw [rawLabels_getD _ _ _ hi', ← hmo, ← hbg, rawLabel] at hlab
  have hcnat : ∃ m : ℕ, (gts.getD bg default).cls = (m : ℚ) := by
    rcases getD_mem_or gts bg default with hmem | heq
    · exact hcls _ hmem
    · exact ⟨0, by rw [heq]; rfl⟩
  obtain ⟨m, hm⟩ := hcnat
  have hm1 : (1 : ℚ) ≤ (gts.getD bg default).cls + 1 := by
    have hmn : (0 : ℚ) ≤ (m : ℚ) := Nat.cast_nonneg m
    rw [hm]
    linarith
  rw [foreground_threshold, background_threshold_low, background_threshold_high] at hlab ⊢
  by_cases hfg : (1 : ℚ) / 2 ≤ mo
  · rw [if_pos hfg] at hlab
    subst hlab
    refine ⟨⟨fun h0 => ?_, fun hband => ?_⟩, ⟨fun _ => hfg, fun _ => rfl⟩,
      fun _ hnfg => absurd hfg hnfg, fun _ => ⟨rfl, fun h0 => ?_⟩⟩
    · rw [h0] at hm1
      linarith
    · exact absurd (hband.2.trans_le hfg) (lt_irrefl mo)
    · rw [h0] at hm1
      linarith
  · rw [if_neg hfg] at hlab
    by_cases hband : (1 : ℚ) / 10 < mo ∧ mo < 1 / 2
    · rw [if_pos hband] at hlab
      subst hlab
      refine ⟨⟨fun _ => hband, fun _ => rfl⟩, ⟨fun h0 => ?_, fun hf => absurd hf hfg⟩,
        fun hn _ => absurd hband hn, fun hmo2 => ?_⟩
      · rw [← h0] at hm1
        linarith
      · rw [hmo2] at hband
        exact absurd hband.2 (by norm_num)
    · rw [if_neg hband] at hlab
      subst hlab
      refine ⟨⟨fun hc => ?_, fun hb => absurd hb hband⟩,
        ⟨fun heq => ?_, fun hf => absurd hf hfg⟩, fun _ _ => rfl, fun hmo2 => ?_⟩
      · norm_num at hc
      · rw [← heq] at hm1
        linarith
      · exfalso
        apply hfg
        rw [hmo2]


/-- C7: for a fixed pair of inputs, two invocations of the layer produce
identical outputs whatever the incoming state of the process-wide random
stream, because `np.random.seed(0)` resets that stream at the start of every
call before any sampling draw. -/
theorem C7_determinism (encode : Box → Box → Vec4) (P : List ProposalRow) (G : List GtBox)
    (im : ℚ × ℚ) (s1 s2 : Nat) :
    proposal_target_layer encode P G im s1 = proposal_target_layer encode P G im s2 := rfl

/-- C3: whenever the layer returns, the label array has exactly one entry per
input proposal and the regression-target array exactly one row (of four
rationals, by the type `Vec4`) per input proposal, regardless of how many
proposals were filtered out as outside-image or subsampled away. -/
theorem C3_output_lengths (encode : Box → Box → Vec4) (P : List ProposalRow)
    (G : List GtBox) (im : ℚ × ℚ) (rng : Nat) (labels : List ℚ) (targets : List Vec4)
    (h : proposal_target_layer encode P G im rng = .ok (labels, targets)) :
    labels.length = P.length ∧ targets.length = P.length := by
  obtain ⟨l2, s2, l3, s3, hfg, hbg, hl, ht⟩ := run_ok_inv h
  subst hl ht
  constructor
  · rw [unmap_length]
    simp
  · rw [unmap_length]
    simp

/-- C10: the layer never fails through the without-replacement sampling
call: every run either returns normally or fails with the empty-axis
reduction error, so the over-draw failure branch of `np.random.choice` is
unreachable (both draws request at most the number of available candidate
indices). -/
theorem C10_overdraw_unreachable (encode : Box → Box → Vec4) (P : List ProposalRow)
    (G : List GtBox) (im : ℚ × ℚ) (rng : Nat) :
    (∃ out, proposal_target_layer encode P G im rng = .ok out)
    ∨ proposal_target_layer encode P G im rng = .error .emptyReduce :=
  run_cases encode P G im rng

/-- C5: in the returned labels, the number of foreground proposals (label at
least 1) is at most `floor(foreground_fraction * batch_size)`, and the
number of background proposals (label 0) plus the number of foreground
proposals is at most `batch_size`. -/
theorem C5_subsample_bounds (encode : Box → Box → Vec4) (P : List ProposalRow)
    (G : List GtBox) (im : ℚ × ℚ) (rng : Nat) (labels : List ℚ) (targets : List Vec4)
    (h : proposal_target_layer encode P G im rng = .ok (labels, targets)) :
    labels.countP (fun v => decide (1 ≤ v))
        ≤ (⌊foreground_fraction * (batch_size : ℚ)⌋).toNat
    ∧ labels.countP (fun v => decide (v = 0)) + labels.countP (fun v => decide (1 ≤ v))
        ≤ batch_size := by
  obtain ⟨l2, s2, l3, s3, hfg, hbg, hl, ht⟩ := run_ok_inv h
  subst hl ht
  have hlen3 : l3.length = (inds_inside (P.map boxOf) im).length := by
    rw [bgStep_length hbg, fgStep_length hfg, rawLabels_length, bbox_overlaps_length,
      validProps_length]
  have hfg16 := fgStep_countFg hfg
  have hc64 : l2.countP (fun v => decide (1 ≤ v)) ≤ batch_size := by
    rw [batch_size]
    omega
  have h3fg := bgStep_countFg hbg
  have h3zero := bgStep_countZero hbg hc64
  have hcount1 : (unmap l3 (P.map boxOf).length (inds_inside (P.map boxOf) im) (-1)).countP
      (fun v => decide (1 ≤ v)) = l3.countP (fun v => decide (1 ≤ v)) :=
    countP_unmap _ _ _ _ _ (whereIdx_nodup _ _ _)
      (fun j hj => (mem_whereIdx.mp hj).1) hlen3 (by norm_num)
  have hcount0 : (unmap l3 (P.map boxOf).length (inds_inside (P.map boxOf) im) (-1)).countP
      (fun v => decide (v = 0)) = l3.countP (fun v => decide (v = 0)) :=
    countP_unmap _ _ _ _ _ (whereIdx_nodup _ _ _)
      (fun j hj => (mem_whereIdx.mp hj).1) hlen3 (by norm_num)
  have hfl : (⌊foreground_fraction * (batch_size : ℚ)⌋).toNat = 16 := by
    have h16 : foreground_fraction * (batch_size : ℚ) = 16 := by
      rw [foreground_fraction, batch_size]
      norm_num
    rw [h16]
    norm_num
    rfl
  rw [hcount0, hcount1, hfl]
  omega

/-- C8: exactly the proposals whose stripped box satisfies `x1 ≥ 0`,
`y1 ≥ 0`, `x2 < imageWidth` and `y2 < imageHeight` are kept for labelling,
and every excluded proposal comes back with final label `-1` and regression
target `(0, 0, 0, 0)` in the full-length returned arrays. -/
theorem C8_inside_filter (encode : Box → Box → Vec4) (P : List ProposalRow)
    (G : List GtBox) (im : ℚ × ℚ) (rng : Nat) (labels : List ℚ) (targets : List Vec4)
    (h : proposal_target_layer encode P G im rng = .ok (labels, targets))
    (p : Nat) (hp : p < P.length) :
    (p ∈ inds_inside (P.map boxOf) im
      ↔ (0 ≤ (P.getD p default).x1 ∧ 0 ≤ (P.getD p default).y1
          ∧ (P.getD p default).x2 < im.2 ∧ (P.getD p default).y2 < im.1))
    ∧ (p ∉ inds_inside (P.map boxOf) im →
        labels.getD p 0 = -1 ∧ targets.getD p zero4 = zero4) := by
  obtain ⟨l2, s2, l3, s3, hfg, hbg, hl, ht⟩ := run_ok_inv h
  subst hl ht
  have hpN : p < (P.map boxOf).length := by simpa using hp
  constructor
  · have hall : (P.map boxOf).getD p default = boxOf (P.getD p default) :=
      getD_map boxOf P p default default hp
    rw [inds_inside, mem_whereIdx, hall]
    simp only [insidePred, boxOf, Bool.and_eq_true, decide_eq_true_eq, List.length_map]
    tauto
  · intro hnm
    constructor
    · rw [unmap_getD _ _ _ _ p 0 hpN, unmapAt_not_mem _ _ _ _ hnm]
    · rw [unmap_getD _ _ _ _ p zero4 hpN, unmapAt_not_mem _ _ _ _ hnm]

/-- C2: in the returned arrays, every proposal whose final label is at most 0
has regression target exactly `(0, 0, 0, 0)`, and every proposal with a
strictly positive final label has regression target equal to the encoding of
its own stripped box against the ground-truth box selected by the
first-index argmax of its overlap row. -/
theorem C2_regression_targets (encode : Box → Box → Vec4) (P : List ProposalRow)
    (G : List GtBox) (im : ℚ × ℚ) (rng : Nat) (labels : List ℚ) (targets : List Vec4)
    (h : proposal_target_layer encode P G im rng = .ok (labels, targets))
    (p : Nat) (hp : p < P.length) :
    (labels.getD p 0 ≤ 0 → targets.getD p zero4 = zero4)
    ∧ (0 < labels.getD p 0 →
        targets.getD p zero4
          = encode (boxOf (P.getD p default))
              (gtBox (G.getD (rowArgmax (G.map (fun g =>
                  iou (boxOf (P.getD p default)) (gtBox g)))) default))) := by
  obtain ⟨l2, s2, l3, s3, hfg, hbg, hl, ht⟩ := run_ok_inv h
  subst hl ht
  have hpN : p < (P.map boxOf).length := by simpa using hp
  have hlenv : l3.length = (validProps (P.map boxOf) im).length := by
    rw [bgStep_length hbg, fgStep_length hfg, rawLabels_length, bbox_overlaps_length]
  have hlen3 : l3.length = (inds_inside (P.map boxOf) im).length := by
    rw [hlenv, validProps_length]
  cases hpos : posOf p (inds_inside (P.map boxOf) im) with
  | none =>
    have hnm := posOf_eq_none.mp hpos
    constructor
    · intro _
      rw [unmap_getD _ _ _ _ p zero4 hpN, unmapAt_not_mem _ _ _ _ hnm]
    · intro hlabpos
      rw [unmap_getD _ _ _ _ p 0 hpN, unmapAt_not_mem _ _ _ _ hnm] at hlabpos
      norm_num at hlabpos
  | some v =>
    obtain ⟨hvlen, hvval⟩ := posOf_spec hpos
    have hvl3 : v < l3.length := by omega
    have hlabeq : (unmap l3 (P.map boxOf).length (inds_inside (P.map boxOf) im) (-1)).getD p 0
        = l3.getD v 0 := by
      rw [unmap_getD _ _ _ _ p 0 hpN, unmapAt_posOf _ _ _ _ _ hpos,
        getD_eq_getElem' l3 v (-1) hvl3, getD_eq_getElem' l3 v 0 hvl3]
    have htareq : (unmap (targetsStage encode (validProps (P.map boxOf) im) G l3)
          (P.map boxOf).length (inds_inside (P.map boxOf) im) zero4).getD p zero4
        = (targetsStage encode (validProps (P.map boxOf) im) G l3).getD v zero4 := by
      rw [unmap_getD _ _ _ _ p zero4 hpN, unmapAt_posOf _ _ _ _ _ hpos]
    have hprops : (validProps (P.map boxOf) im).getD v default = boxOf (P.getD p default) := by
      rw [validProps_getD hvlen hvval, getD_map boxOf P p default default hp]
    have hov : (bbox_overlaps (validProps (P.map boxOf) im) G).getD v []
        = G.map (fun g => iou (boxOf (P.getD p default)) (gtBox g)) := by
      rw [bbox_overlaps_getD _ _ _ (by rw [validProps_length]; omega), hprops]
    rw [hlabeq, htareq, targetsStage_getD _ _ _ _ hlenv v hvl3]
    constructor
    · intro hle
      rw [if_neg (not_lt.mpr hle)]
    · intro hpos2
      rw [if_pos hpos2, hprops, hov]


/-- C6 (amended): after subsampling, the returned active training set is the
surviving foreground proposals (label at least 1, at most `num_fg` of them)
plus surviving background proposals (label 0) whose count is the minimum of
`batch_size` minus the surviving foreground count and the number of
background candidates produced by Step 3 (so it equals `batch_size` minus
the foreground count exactly when enough background candidates exist);
every other proposal carries `-(m + 1)` for some natural `m`, that is,
ignore `-1` or a disabled positive (negated class label). -/
theorem C6_active_set_amended (encode : Box → Box → Vec4) (P : List ProposalRow)
    (G : List GtBox) (im : ℚ × ℚ) (rng : Nat) (labels : List ℚ) (targets : List Vec4)
    (h : proposal_target_layer encode P G im rng = .ok (labels, targets))
    (hcls : ∀ g ∈ G, ∃ m : ℕ, g.cls = (m : ℚ)) :
    labels.countP (fun v => decide (1 ≤ v)) ≤ num_fg.toNat
    ∧ labels.countP (fun v => decide (v = 0))
        = min ((rawLabels (bbox_overlaps (validProps (P.map boxOf) im) G) G).countP
              (fun v => decide (v = 0)))
            (batch_size - labels.countP (fun v => decide (1 ≤ v)))
    ∧ (∀ p : Nat, p < P.length → ¬ (1 ≤ labels.getD p 0) → ¬ labels.getD p 0 = 0 →
        ∃ m : ℕ, labels.getD p 0 = -((m : ℚ) + 1)) := by
  obtain ⟨l2, s2, l3, s3, hfg, hbg, hl, ht⟩ := run_ok_inv h
  subst hl ht
  have hlen1 : (rawLabels (bbox_overlaps (validProps (P.map boxOf) im) G) G).length
      = (inds_inside (P.map boxOf) im).length := by
    rw [rawLabels_length, bbox_overlaps_length, validProps_length]
  have hlen2 : l2.length = (inds_inside (P.map boxOf) im).length := by
    rw [fgStep_length hfg, hlen1]
  have hlen3 : l3.length = (inds_inside (P.map boxOf) im).length := by
    rw [bgStep_length hbg, hlen2]
  have hfg16 := fgStep_countFg hfg
  have hc64 : l2.countP (fun v => decide (1 ≤ v)) ≤ batch_size := by
    rw [batch_size]
    omega
  have h3fg := bgStep_countFg hbg
  have h3zero := bgStep_countZero hbg hc64
  have h2zero := fgStep_countZero hfg
  have hcount1 : (unmap l3 (P.map boxOf).length (inds_inside (P.map boxOf) im) (-1)).countP
      (fun v => decide (1 ≤ v)) = l3.countP (fun v => decide (1 ≤ v)) :=
    countP_unmap _ _ _ _ _ (whereIdx_nodup _ _ _)
      (fun j hj => (mem_whereIdx.mp hj).1) hlen3 (by norm_num)
  have hcount0 : (unmap l3 (P.map boxOf).length (inds_inside (P.map boxOf) im) (-1)).countP
      (fun v => decide (v = 0)) = l3.countP (fun v => decide (v = 0)) :=
    countP_unmap _ _ _ _ _ (whereIdx_nodup _ _ _)
      (fun j hj => (mem_whereIdx.mp hj).1) hlen3 (by norm_num)
  have hnf : num_fg.toNat = 16 := by
    rw [num_fg_eq]
    rfl
  refine ⟨?_, ?_, ?_⟩
  · rw [hcount1, hnf]
    omega
  · rw [hcount0, hcount1]
    omega
  · intro p hp hnot1 hnot0
    have hpN : p < (P.map boxOf).length := by simpa using hp
    rw [unmap_getD _ _ _ _ p 0 hpN] at hnot1 hnot0 ⊢
    cases hpos : posOf p (inds_inside (P.map boxOf) im) with
    | none =>
      rw [unmapAt_not_mem _ _ _ _ (posOf_eq_none.mp hpos)]
      refine ⟨0, ?_⟩
      norm_num
    | some v =>
      obtain ⟨hvlen, hvval⟩ := posOf_spec hpos
      have hvl3 : v < l3.length := by omega
      have hgd : unmapAt l3 (inds_inside (P.map boxOf) im) (-1) p = l3.getD v 0 := by
        rw [unmapAt_posOf _ _ _ _ _ hpos, getD_eq_getElem' l3 v (-1) hvl3,
          getD_eq_getElem' l3 v 0 hvl3]
      rw [hgd] at hnot1 hnot0 ⊢
      have hvl2 : v < l2.length := by omega
      have hvl1 : v < (rawLabels (bbox_overlaps (validProps (P.map boxOf) im) G) G).length := by
        omega
      have hraw := rawLabel_cases G hcls
        (rowMax ((bbox_overlaps (validProps (P.map boxOf) im) G).getD v []))
        (rowArgmax ((bbox_overlaps (validProps (P.map boxOf) im) G).getD v []))
      have hrl : (rawLabels (bbox_overlaps (validProps (P.map boxOf) im) G) G).getD v 0
          = rawLabel G
              (rowMax ((bbox_overlaps (validProps (P.map boxOf) im) G).getD v []))
              (rowArgmax ((bbox_overlaps (validProps (P.map boxOf) im) G).getD v [])) :=
        rawLabels_getD _ _ _ (by rw [hlen1] at hvl1; rw [bbox_overlaps_length, validProps_length]; omega)
      rw [← hrl] at hraw
      rcases bgStep_pointwise hbg v hvl2 with h3 | ⟨h20, h3⟩
      · rcases fgStep_pointwise hfg v hvl1 with h2 | ⟨h1ge, h2⟩
        · rw [h3, h2] at hnot1 hnot0 ⊢
          rcases hraw with hA | hB | ⟨m, hC⟩
          · refine ⟨0, ?_⟩
            rw [hA]
            norm_num
          · exact absurd hB hnot0
          · exfalso
            apply hnot1
            rw [hC]
            have hmn : (0 : ℚ) ≤ (m : ℚ) := Nat.cast_nonneg m
            linarith
        · rw [h3, h2] at hnot1 hnot0 ⊢
          rcases hraw with hA | hB | ⟨m, hC⟩
          · rw [hA] at h1ge
            exfalso
            linarith
          · rw [hB] at h1ge
            exfalso
            linarith
          · refine ⟨m, ?_⟩
            rw [hC]
      · rw [h3]
        refine ⟨0, ?_⟩
        norm_num


/-! Concrete evaluations.  The rational arithmetic operations are marked
irreducible upstream; unfolding is re-enabled here so the layer can be
evaluated on explicit inputs inside proofs. -/

set_option allowUnsafeReducibility true

attribute [semireducible] Rat.add Rat.mul Rat.sub Rat.inv Rat.div Rat.ofScientific

/-- C4: with zero ground-truth boxes and one valid proposal, the layer does
not return the all-ignore labelling the spec requires; the row-wise maximum
`overlaps.max(axis=1)` reduces over an empty axis and raises, so the whole
call fails. -/
theorem C4_empty_gt_raises :
    proposal_target_layer sampleEncode [⟨0, 1, 1, 2, 2⟩] [] (10, 10) 0
      = .error .emptyReduce := by
  rfl

/-- C6 counterexample: one proposal fully matching the single ground-truth
box is labelled foreground, there are no background candidates, and the
returned background count 0 differs from `batch_size` minus the surviving
foreground count, refuting the claimed equality. -/
theorem C6_active_set_counterexample :
    proposal_target_layer sampleEncode [⟨0, 0, 0, 4, 4⟩] [⟨0, 0, 4, 2, 2⟩] (10, 10) 0
        = .ok ([3], [(0, 0, 0, -2)])
    ∧ ¬ ([(3 : ℚ)].countP (fun v => decide (v = 0))
          = batch_size - [(3 : ℚ)].countP (fun v => decide (1 ≤ v))) := by
  constructor
  · rfl
  · decide

/-- Witness for C1 on one valid proposal whose overlap row against a single
class-2 ground-truth box is exactly `[1/2]`: the raw label is 3, foreground. -/
theorem C1_raw_label_policy_witness :
    ((3 : ℚ) = 0 ↔ background_threshold_low < (1 / 2 : ℚ)
        ∧ (1 / 2 : ℚ) < background_threshold_high)
    ∧ ((3 : ℚ) = (([⟨0, 0, 4, 2, 2⟩] : List GtBox).getD 0 default).cls + 1
        ↔ foreground_threshold ≤ (1 / 2 : ℚ))
    ∧ (¬ (background_threshold_low < (1 / 2 : ℚ)
          ∧ (1 / 2 : ℚ) < background_threshold_high)
        → ¬ foreground_threshold ≤ (1 / 2 : ℚ) → (3 : ℚ) = -1)
    ∧ ((1 / 2 : ℚ) = 1 / 2
        → (3 : ℚ) = (([⟨0, 0, 4, 2, 2⟩] : List GtBox).getD 0 default).cls + 1
          ∧ (3 : ℚ) ≠ 0) :=
  C1_raw_label_policy [⟨0, 0, 4, 4⟩] [⟨0, 0, 4, 2, 2⟩]
    (fun g hg => ⟨2, by rw [List.mem_singleton] at hg; rw [hg]; norm_num⟩)
    0 (by decide) (1 / 2) 0 3 (by rfl) (by rfl) (by rfl)

/-- Witness for C2 at the foreground proposal of a concrete run: its returned
regression row equals the encoding of its own box against its best
ground-truth box. -/
theorem C2_regression_targets_witness :
    ((3 : ℚ) ≤ 0 → ((0 : ℚ), (0 : ℚ), (0 : ℚ), (-2 : ℚ)) = zero4)
    ∧ (0 < (3 : ℚ) → ((0 : ℚ), (0 : ℚ), (0 : ℚ), (-2 : ℚ))
        = sampleEncode (boxOf ⟨0, 0, 0, 4, 4⟩) (gtBox ⟨0, 0, 4, 2, 2⟩)) :=
  C2_regression_targets sampleEncode [⟨0, 0, 0, 4, 4⟩, ⟨0, -1, 0, 2, 2⟩]
    [⟨0, 0, 4, 2, 2⟩] (10, 10) 0 [3, -1] [(0, 0, 0, -2), (0, 0, 0, 0)]
    (by rfl) 0 (by decide)

/-- Witness for C3 on a concrete run with one inside and one outside
proposal: both returned arrays have length 2. -/
theorem C3_output_lengths_witness :
    ([(3 : ℚ), -1] : List ℚ).length = 2 ∧ ([(0, 0, 0, -2), (0, 0, 0, 0)] : List Vec4).length = 2 :=
  C3_output_lengths sampleEncode [⟨0, 0, 0, 4, 4⟩, ⟨0, -1, 0, 2, 2⟩]
    [⟨0, 0, 4, 2, 2⟩] (10, 10) 0 [3, -1] [(0, 0, 0, -2), (0, 0, 0, 0)] (by rfl)

/-- Witness for C5 on the same concrete run: one foreground, zero background,
within the batch bounds. -/
theorem C5_subsample_bounds_witness :
    ([(3 : ℚ), -1] : List ℚ).countP (fun v => decide (1 ≤ v))
        ≤ (⌊foreground_fraction * (batch_size : ℚ)⌋).toNat
    ∧ ([(3 : ℚ), -1] : List ℚ).countP (fun v => decide (v = 0))
        + ([(3 : ℚ), -1] : List ℚ).countP (fun v => decide (1 ≤ v)) ≤ batch_size :=
  C5_subsample_bounds sampleEncode [⟨0, 0, 0, 4, 4⟩, ⟨0, -1, 0, 2, 2⟩]
    [⟨0, 0, 4, 2, 2⟩] (10, 10) 0 [3, -1] [(0, 0, 0, -2), (0, 0, 0, 0)] (by rfl)

/-- Witness for the amended C6 on the same concrete run: the foreground count
is 1, the background count is the minimum of the 0 available candidates and
63 remaining slots, and the one non-active proposal carries an ignore label
of the form `-(m + 1)`. -/
theorem C6_active_set_amended_witness :
    ([(3 : ℚ), -1] : List ℚ).countP (fun v => decide (1 ≤ v)) ≤ num_fg.toNat
    ∧ ([(3 : ℚ), -1] : List ℚ).countP (fun v => decide (v = 0)) = 0
    ∧ (∀ p : Nat, p < ([⟨0, 0, 0, 4, 4⟩, ⟨0, -1, 0, 2, 2⟩] : List ProposalRow).length
        → ¬ (1 ≤ ([(3 : ℚ), -1] : List ℚ).getD p 0)
        → ¬ ([(3 : ℚ), -1] : List ℚ).getD p 0 = 0
        → ∃ m : ℕ, ([(3 : ℚ), -1] : List ℚ).getD p 0 = -((m : ℚ) + 1)) :=
  C6_active_set_amended sampleEncode [⟨0, 0, 0, 4, 4⟩, ⟨0, -1, 0, 2, 2⟩]
    [⟨0, 0, 4, 2, 2⟩] (10, 10) 0 [3, -1] [(0, 0, 0, -2), (0, 0, 0, 0)] (by rfl)
    (fun g hg => ⟨2, by rw [List.mem_singleton] at hg; rw [hg]; norm_num⟩)

/-- Witness for C8 at the outside-image proposal of the same concrete run:
it is excluded by the filter and comes back with label -1 and zero target. -/
theorem C8_inside_filter_witness :
    ((1 : Nat) ∈ inds_inside (([⟨0, 0, 0, 4, 4⟩, ⟨0, -1, 0, 2, 2⟩] : List ProposalRow).map boxOf)
          ((10 : ℚ), (10 : ℚ))
      ↔ (0 ≤ (-1 : ℚ) ∧ 0 ≤ (0 : ℚ) ∧ (2 : ℚ) < 10 ∧ (2 : ℚ) < 10))
    ∧ ((1 : Nat) ∉ inds_inside (([⟨0, 0, 0, 4, 4⟩, ⟨0, -1, 0, 2, 2⟩] : List ProposalRow).map boxOf)
          ((10 : ℚ), (10 : ℚ)) →
        ([(3 : ℚ), -1] : List ℚ).getD 1 0 = -1
        ∧ ([(0, 0, 0, -2), (0, 0, 0, 0)] : List Vec4).getD 1 zero4 = zero4) :=
  C8_inside_filter sampleEncode [⟨0, 0, 0, 4, 4⟩, ⟨0, -1, 0, 2, 2⟩]
    [⟨0, 0, 4, 2, 2⟩] (10, 10) 0 [3, -1] [(0, 0, 0, -2), (0, 0, 0, 0)] (by rfl)
    1 (by decide)

end RCNN
